import Mathlib

/-!
Verification development for the l1l2py repository.

Part 1 embeds the utility functions of `src/l1l2py/tools.py` (range
generation, centering, balanced classification error, k-fold splitting).
Python floats are modelled by `ℚ`; a raised Python exception is modelled by
`Except.error`; the global random generator of the Python `random` module is
modelled by an explicit state argument together with two function parameters
(`seedFn` for `random.seed` and `next` for one draw of the generator), so
every theorem holds for every possible generator.

Part 2 models the solver module (`l1l2py/algorithms.py`), whose source is not
part of this tree: only its test-suite `src/l1l2py/tests/test_algorithms.py`
is.  Those definitions are therefore modelled from the specification
(spec.md §4.2-§4.4, §6) and each carries a doc comment starting with
"Modelled from the spec:".
-/

/-! ## Part 1: embeddings of `src/l1l2py/tools.py` -/

/-- Embeds `tools.geometric_range`.  The Python body is
`ratio = (max_value/float(min_value))**(1.0/(number-1))` followed by
`min_value * (ratio ** np.arange(number))`.  The float division raises
`ZeroDivisionError` when `min_value` is `0.0`, and `1.0/(number-1)` raises it
when `number` is `1`; both checks happen before any power is computed, so the
(float) power primitive `**` — an external runtime primitive, not code of this
repository — is supplied as the function parameter `powf` and the results hold
for every such primitive. -/
def geometric_range (powf : ℚ → ℚ → ℚ) (min_value max_value : ℚ) (number : ℤ) :
    Except String (List ℚ) :=
  if min_value = 0 then Except.error "ZeroDivisionError: float division"
  else if number = 1 then Except.error "ZeroDivisionError: float division"
  else
    Except.ok ((List.range number.toNat).map fun k =>
      min_value * (powf (max_value / min_value) (1 / ((number : ℚ) - 1))) ^ k)

/-- Column-wise mean `matrix.mean(axis=0)` used by `tools.center`. -/
def colMean {n d : ℕ} (matrix : Fin n → Fin d → ℚ) (j : Fin d) : ℚ :=
  (∑ i, matrix i j) / n

/-- Embeds `tools.center` on a 2-D input (the `return_mean=False`,
`optional_matrix=None` branch): `matrix - matrix.mean(axis=0)`. -/
def center {n d : ℕ} (matrix : Fin n → Fin d → ℚ) : Fin n → Fin d → ℚ :=
  fun i j => matrix i j - colMean matrix j

/-- Embeds `tools.center` on a 2-D input with `return_mean=True`:
the pair `(matrix - mean, mean)`. -/
def center_return_mean {n d : ℕ} (matrix : Fin n → Fin d → ℚ) :
    (Fin n → Fin d → ℚ) × (Fin d → ℚ) :=
  (center matrix, colMean matrix)

/-- Embeds `tools.center` on a 1-D input (used by
`balanced_classification_error` on the label vector): `v - v.mean()`. -/
def center1 {n : ℕ} (v : Fin n → ℚ) : Fin n → ℚ :=
  fun i => v i - (∑ i, v i) / n

/-- Embeds `np.sign`: `1` on positives, `-1` on negatives, `0` at `0`. -/
def pySign (q : ℚ) : ℚ := if 0 < q then 1 else if q < 0 then -1 else 0

/-- Embeds `tools.balanced_classification_error`:
`balance_factors = np.abs(center(labels))`;
`errors = (np.sign(labels) != np.sign(predicted)) * balance_factors`;
result `errors.sum() / float(len(labels))`. -/
def balanced_classification_error {n : ℕ} (labels predicted : Fin n → ℚ) : ℚ :=
  (∑ i, (if pySign (labels i) ≠ pySign (predicted i) then (1 : ℚ) else 0) *
      |center1 labels i|) / n

/-- Swap of two positions of a list, reading both values from the original
list; the elementary operation of `random.shuffle`'s Fisher-Yates loop. -/
def listSwap (l : List ℕ) (i j : ℕ) : List ℕ :=
  (l.set i (l.getD j 0)).set j (l.getD i 0)

/-- Embeds the Fisher-Yates loop of CPython's `random.shuffle`:
`for i in reversed(range(1, len(x))): j = random in [0, i]; swap x[i], x[j]`.
The countdown argument is the current position `i`; one generator draw is
taken per position and reduced modulo `i+1`. -/
def shuffleGo (next : ℕ → ℕ × ℕ) : ℕ → List ℕ → ℕ → List ℕ × ℕ
  | 0, l, g => (l, g)
  | i + 1, l, g =>
      let r := next g
      shuffleGo next i (listSwap l (i + 1) (r.1 % (i + 2))) r.2

/-- Embeds `random.shuffle(x)` for the generator state `g`. -/
def pyShuffle (next : ℕ → ℕ × ℕ) (l : List ℕ) (g : ℕ) : List ℕ × ℕ :=
  shuffleGo next (l.length - 1) l g

/-- Embeds Python 2 `int(round(remaining_items / remaining_splits))` for the
nonnegative integer-valued quantities of `tools._split_dimensions`
(`remaining_items` stays an exact integer there): rounding half away from
zero of `r / s`, i.e. `⌊r/s + 1/2⌋`. -/
def pyRound (r s : ℕ) : ℕ := (2 * r + s) / (2 * s)

/-- Recursion of `tools._split_dimensions`: `remaining_splits` counts down,
`start` and `remaining_items` evolve; each step yields `(start, end)` with
`end = start + int(round(remaining_items / remaining_splits))`. -/
def splitDimsGo : ℕ → ℕ → ℕ → List (ℕ × ℕ)
  | 0, _, _ => []
  | s + 1, start, remaining =>
      let size := pyRound remaining (s + 1)
      (start, start + size) :: splitDimsGo s (start + size) (remaining - size)

/-- Embeds `tools._split_dimensions(num_items, num_splits)`. -/
def _split_dimensions (num_items num_splits : ℕ) : List (ℕ × ℕ) :=
  splitDimsGo num_splits 0 num_items

/-- Embeds `tools._splits(indexes, k)`:
`[(indexes[:start] + indexes[end:], indexes[start:end]) for start, end in
_split_dimensions(len(indexes), k)]`. -/
def _splits (indexes : List ℕ) (k : ℕ) : List (List ℕ × List ℕ) :=
  (_split_dimensions indexes.length k).map fun p =>
    (indexes.take p.1 ++ indexes.drop p.2, (indexes.drop p.1).take (p.2 - p.1))

/-- Embeds `tools.kfold_splits(labels, k, rseed)`.  The Python function
validates `0 < k <= len(labels)` (raising `ValueError` otherwise), then calls
`random.seed(rseed)`, shuffles `range(len(labels))` in place with the global
generator, and returns `_splits(indexes, k)`.  The global generator is
modelled by the explicit incoming state `g`, which `random.seed` replaces by
`seedFn rseed`; the updated state is returned alongside the result. -/
def kfold_splits (next : ℕ → ℕ × ℕ) (seedFn : ℤ → ℕ) (labels : List ℚ)
    (k : ℕ) (rseed : ℤ) (g : ℕ) :
    Except String (List (List ℕ × List ℕ)) × ℕ :=
  if 0 < k ∧ k ≤ labels.length then
    let g1 := seedFn rseed
    let s := pyShuffle next (List.range labels.length) g1
    (Except.ok (_splits s.1 k), s.2)
  else
    (Except.error
      "ValueError: k must be greater than zero and smaller or equal than number of samples",
      g)

/-! ## Part 2: the solver module, modelled from the spec -/

/-- Dot product of two vectors. -/
def dotp {m : ℕ} (u v : Fin m → ℚ) : ℚ := ∑ i, u i * v i

/-- Matrix-vector product `X β`. -/
def matVec {n d : ℕ} (X : Fin n → Fin d → ℚ) (b : Fin d → ℚ) : Fin n → ℚ :=
  fun i => ∑ j, X i j * b j

/-- Transposed product `Xᵀ u`. -/
def matTvec {n d : ℕ} (X : Fin n → Fin d → ℚ) (u : Fin n → ℚ) : Fin d → ℚ :=
  fun j => ∑ i, X i j * u i

/-- Squared Frobenius norm of `X`. -/
def frobSq {n d : ℕ} (X : Fin n → Fin d → ℚ) : ℚ := ∑ i, ∑ j, (X i j) ^ 2

/-- Largest absolute value of the entries of a vector (`np.abs(u).max()`,
with value `0` on an empty vector). -/
def maxAbs {m : ℕ} (u : Fin m → ℚ) : ℚ := Finset.univ.fold max 0 (fun i => |u i|)

/-- Soft-thresholding operator `np.sign(v) * np.clip(np.abs(v) - t, 0, np.inf)`
(spec glossary: the proximal operator of the L1 norm). -/
def softThresh (t v : ℚ) : ℚ :=
  (if 0 < v then 1 else if v < 0 then -1 else 0) * max (|v| - t) 0

/-- Modelled from the spec: the step-size scale of the Elastic-Net Iterative
Solver (spec §4.2 step 1), "an upper bound on the Lipschitz constant of the
smooth term's gradient, derived from the spectral norm of X, scaled by sample
count and μ".  The spectral norm squared is bounded above by the squared
Frobenius norm, which keeps the value rational, so `σ = ‖X‖_F²/n + μ`. -/
def sigmaOf {n d : ℕ} (X : Fin n → Fin d → ℚ) (mu : ℚ) : ℚ := frobSq X / n + mu

/-- Residual vector `Y - X β`. -/
def resid {n d : ℕ} (X : Fin n → Fin d → ℚ) (Y : Fin n → ℚ) (b : Fin d → ℚ) :
    Fin n → ℚ :=
  fun i => Y i - matVec X b i

/-- Modelled from the spec: the pre-threshold value of one iteration
(spec §4.2 step 3), the gradient step `β + σ⁻¹·Xᵀ(Y−Xβ)·(scaling)` adjusted
for the ridge term, i.e. `(1 − μ/σ)·β_j + (Xᵀ(Y−Xβ))_j/(n·σ)`. -/
def preVal {n d : ℕ} (X : Fin n → Fin d → ℚ) (Y : Fin n → ℚ) (mu : ℚ)
    (b : Fin d → ℚ) : Fin d → ℚ :=
  fun j => (1 - mu / sigmaOf X mu) * b j +
    matTvec X (resid X Y b) j / (n * sigmaOf X mu)

/-- Modelled from the spec: one iteration of the Elastic-Net Iterative Solver
(spec §4.2 step 3): gradient step followed by elementwise soft-thresholding
with threshold `τ/(2σ)`. -/
def istaStep {n d : ℕ} (X : Fin n → Fin d → ℚ) (Y : Fin n → ℚ) (mu tau : ℚ)
    (b : Fin d → ℚ) : Fin d → ℚ :=
  fun j => softThresh (tau / (2 * sigmaOf X mu)) (preVal X Y mu b j)

/-- Modelled from the spec: the convergence test of spec §4.2 step 3-4, the
relative change `‖β_new−β_old‖/‖β_old‖ ≤ ε` in the max-abs norm, "with a safe
fallback: treat as converged if β_old is exactly zero and β_new is exactly
zero". -/
def convergedB {d : ℕ} (eps : ℚ) (bold bnew : Fin d → ℚ) : Bool :=
  if maxAbs bold = 0 then decide (maxAbs bnew = 0)
  else decide (maxAbs (fun j => bnew j - bold j) ≤ eps * maxAbs bold)

/-- Modelled from the spec: the iteration loop of spec §4.2 step 3-4. `fuel`
is the remaining iteration budget, `k` the count of iterations already done;
the loop stops at convergence or when the budget is exhausted (the `kmax`
cap), whichever happens first, and reports the pair (β, iterations used). -/
def istaLoop {n d : ℕ} (X : Fin n → Fin d → ℚ) (Y : Fin n → ℚ) (mu tau eps : ℚ) :
    ℕ → (Fin d → ℚ) → ℕ → ((Fin d → ℚ) × ℕ)
  | 0, b, k => (b, k)
  | fuel + 1, b, k =>
      let bnew := istaStep X Y mu tau b
      if convergedB eps b bnew then (bnew, k + 1)
      else istaLoop X Y mu tau eps fuel bnew (k + 1)

/-- Modelled from the spec: `l1l2_regularization(X, Y, mu, tau, beta, kmax,
tolerance, return_iterations=True)` of spec §4.2/§6, returning the pair
(coefficient vector, iterations used).  `beta0` is the warm start (the zero
vector when the Python argument `beta` is `None`). -/
def l1l2_regularization {n d : ℕ} (X : Fin n → Fin d → ℚ) (Y : Fin n → ℚ)
    (mu tau : ℚ) (beta0 : Fin d → ℚ) (kmax : ℕ) (tolerance : ℚ) :
    (Fin d → ℚ) × ℕ :=
  istaLoop X Y mu tau tolerance kmax beta0 0

/-- Modelled from the spec: default iteration cap (spec §4.2: "kmax (default
large, e.g. 1e5)"). -/
def defaultKmax : ℕ := 100000

/-- Modelled from the spec: default tolerance (spec §9 suggests 1e-4 to 1e-5;
1e-5 is consistent with the test-suite fact that tolerance 1e-3 is looser
than the default). -/
def defaultTol : ℚ := 1 / 100000

/-- The all-zero coefficient vector (the default start of the iteration). -/
def zeroVec (d : ℕ) : Fin d → ℚ := fun _ => 0

/-- Number of non-zero coefficients, `len(beta[beta != 0])`. -/
def nonzeroCount {d : ℕ} (b : Fin d → ℚ) : ℕ :=
  (Finset.univ.filter fun j => b j ≠ 0).card

/-- Boolean test for the all-zero coefficient vector. -/
def allZeroB {d : ℕ} (b : Fin d → ℚ) : Bool := decide (∀ j, b j = 0)

/-- Modelled from the spec: `l1_bound(X, Y)` of spec §4.3, "derived
analytically from the maximum absolute value of XᵀY scaled by sample count":
`τ_max = 2·max|XᵀY|/n`, the threshold at which the soft-threshold step zeroes
every coordinate on the first iteration from a zero start. -/
def l1_bound {n d : ℕ} (X : Fin n → Fin d → ℚ) (Y : Fin n → ℚ) : ℚ :=
  2 * maxAbs (matTvec X Y) / n

/-- Modelled from the spec: the recursion of the Path Driver (spec §4.4).
Each τ is solved with the solver defaults, warm-started from the previous
solution; `prevZero` records whether the previously emitted solution was
entirely zero.  "After computing each β, if it is entirely zero AND the
previous solution in the sequence was also entirely zero, the Path Driver
stops emitting further solutions". -/
def pathGo {n d : ℕ} (X : Fin n → Fin d → ℚ) (Y : Fin n → ℚ) (mu : ℚ) :
    List ℚ → (Fin d → ℚ) → Bool → List (Fin d → ℚ)
  | [], _, _ => []
  | t :: rest, warm, prevZero =>
      let b := (l1l2_regularization X Y mu t warm defaultKmax defaultTol).1
      if allZeroB b && prevZero then []
      else b :: pathGo X Y mu rest b (allZeroB b)

/-- Modelled from the spec: `l1l2_path(X, Y, mu, tau_range)` of spec §4.4/§6:
an ordered sequence of solutions, one per τ value until saturation, the first
solve starting from the zero vector. -/
def l1l2_path {n d : ℕ} (X : Fin n → Fin d → ℚ) (Y : Fin n → ℚ) (mu : ℚ)
    (taus : List ℚ) : List (Fin d → ℚ) :=
  pathGo X Y mu taus (zeroVec d) false

/-- A solution list never contains two consecutive entirely-zero entries. -/
def noConsecZeros {d : ℕ} : List (Fin d → ℚ) → Bool
  | a :: b :: rest => (!(allZeroB a && allZeroB b)) && noConsecZeros (b :: rest)
  | _ => true

/-- The non-zero coefficient counts of consecutive solutions never increase. -/
def countsNonIncreasing {d : ℕ} (l : List (Fin d → ℚ)) : Prop :=
  List.Chain' (fun a b => nonzeroCount b ≤ nonzeroCount a) l

/-! ## Helper lemmas -/

lemma maxAbs_nonneg {m : ℕ} (u : Fin m → ℚ) : 0 ≤ maxAbs u := by
  unfold maxAbs
  rw [Finset.le_fold_max]
  exact Or.inl le_rfl

lemma abs_le_maxAbs {m : ℕ} (u : Fin m → ℚ) (j : Fin m) : |u j| ≤ maxAbs u := by
  unfold maxAbs
  rw [Finset.le_fold_max]
  exact Or.inr ⟨j, Finset.mem_univ j, le_rfl⟩

lemma maxAbs_le {m : ℕ} (u : Fin m → ℚ) (c : ℚ) (hc : 0 ≤ c)
    (h : ∀ j, |u j| ≤ c) : maxAbs u ≤ c := by
  unfold maxAbs
  rw [Finset.fold_max_le]
  exact ⟨hc, fun x _ => h x⟩

lemma maxAbs_eq_zero_iff {m : ℕ} (u : Fin m → ℚ) :
    maxAbs u = 0 ↔ ∀ j, u j = 0 := by
  constructor
  · intro h j
    have h1 := abs_le_maxAbs u j
    rw [h] at h1
    exact abs_eq_zero.mp (le_antisymm h1 (abs_nonneg _))
  · intro h
    refine le_antisymm ?_ (maxAbs_nonneg u)
    exact maxAbs_le u 0 le_rfl (fun j => by simp [h j])

/-! ## Claims about `tools.py` -/

/-- C6: for every `max_value` and `number`, `geometric_range` raises an
explicit `ZeroDivisionError` when `min_value` is `0.0`, and for every
`min_value` and `max_value` it raises one when `number` is `1`; in these
degenerate cases it never silently returns values.  This holds for every
float power primitive `powf`. -/
theorem c6_geometric_range_degenerate :
    ∀ (powf : ℚ → ℚ → ℚ) (min_value max_value : ℚ) (number : ℤ),
      geometric_range powf 0 max_value number =
        Except.error "ZeroDivisionError: float division" ∧
      geometric_range powf min_value max_value 1 =
        Except.error "ZeroDivisionError: float division" := by
  intro powf min_value max_value number
  constructor
  · simp [geometric_range]
  · unfold geometric_range
    by_cases h : min_value = 0 <;> simp [h]

/-- C8: `kfold_splits` is deterministic in its explicit seed parameter: two
calls with identical labels, `k` and `rseed` return identical split lists,
whatever the incoming state `g` of the global random generator is (the call
re-seeds the generator from `rseed` before drawing from it). -/
theorem c8_kfold_splits_deterministic :
    ∀ (next : ℕ → ℕ × ℕ) (seedFn : ℤ → ℕ) (labels : List ℚ) (k : ℕ)
      (rseed : ℤ) (g g' : ℕ),
      (kfold_splits next seedFn labels k rseed g).1 =
      (kfold_splits next seedFn labels k rseed g').1 := by
  intro next seedFn labels k rseed g g'
  unfold kfold_splits
  by_cases h : 0 < k ∧ k ≤ labels.length <;> simp [h]

/-- C9: for every input matrix, `center(matrix, return_mean=True)` returns
`(C, m)` with `m` the column-wise mean and `C = matrix - m`, so adding `m`
back to `C` recovers the matrix exactly, and every column of `C` sums to
zero. -/
theorem c9_center_roundtrip :
    ∀ (n d : ℕ) (matrix : Fin n → Fin d → ℚ),
      (∀ i j, (center_return_mean matrix).1 i j + (center_return_mean matrix).2 j
          = matrix i j) ∧
      (∀ j, ∑ i, (center_return_mean matrix).1 i j = 0) := by
  intro n d matrix
  constructor
  · intro i j
    simp [center_return_mean, center]
  · intro j
    simp only [center_return_mean, center]
    rw [Finset.sum_sub_distrib, Finset.sum_const, Finset.card_univ, Fintype.card_fin]
    rcases Nat.eq_zero_or_pos n with hn | hn
    · subst hn
      simp [colMean]
    · have hn' : (n : ℚ) ≠ 0 := Nat.cast_ne_zero.mpr hn.ne'
      unfold colMean
      field_simp

/-- C10: for every label vector with all entries equal and every prediction
vector of the same (positive) length, `balanced_classification_error`
returns `0`, whatever the predictions are: the per-sample balance weights
`|label - mean(labels)|` all vanish. -/
theorem c10_balanced_error_constant_labels :
    ∀ (n : ℕ) (labels predicted : Fin n → ℚ) (c : ℚ), 0 < n →
      (∀ i, labels i = c) →
      balanced_classification_error labels predicted = 0 := by
  intro n labels predicted c hn hc
  have hn' : (n : ℚ) ≠ 0 := Nat.cast_ne_zero.mpr hn.ne'
  have hmean : (∑ i, labels i) / (n : ℚ) = c := by
    have : (∑ _i : Fin n, c) = (n : ℚ) * c := by
      rw [Finset.sum_const, Finset.card_univ, Fintype.card_fin]; ring
    rw [Finset.sum_congr rfl (fun i _ => hc i), this]
    field_simp
  have hzero : ∀ i, center1 labels i = 0 := by
    intro i
    unfold center1
    rw [hmean, hc i, sub_self]
  unfold balanced_classification_error
  have : ∀ i ∈ (Finset.univ : Finset (Fin n)),
      (if pySign (labels i) ≠ pySign (predicted i) then (1 : ℚ) else 0) *
        |center1 labels i| = 0 := by
    intro i _
    rw [hzero i]
    simp
  rw [Finset.sum_congr rfl this]
  simp

/-- C10 witness: at the concrete all-equal labels `(1,1,1)` and opposite-sign
predictions `(-1,-1,-1)` the balanced classification error is `0`. -/
theorem c10_witness :
    0 < 3 ∧ balanced_classification_error
      (fun _ : Fin 3 => (1 : ℚ)) (fun _ : Fin 3 => (-1 : ℚ)) = 0 :=
  ⟨by decide,
    c10_balanced_error_constant_labels 3 (fun _ => 1) (fun _ => -1) 1
      (by decide) (fun _ => rfl)⟩

/-! ## List lemmas for the k-fold splitter -/

lemma getD_cons_set_perm :
    ∀ (xs : List ℕ) (j a : ℕ), j < xs.length →
      (xs.getD j 0 :: xs.set j a).Perm (a :: xs) := by
  intro xs
  induction xs with
  | nil => intro j a h; cases h
  | cons y ys ih =>
      intro j a h
      cases j with
      | zero =>
          simp only [List.getD_cons_zero, List.set_cons_zero]
          exact List.Perm.swap _ _ _
      | succ j =>
          have hj : j < ys.length := by simpa using h
          simp only [List.getD_cons_succ, List.set_cons_succ]
          exact ((List.Perm.swap _ _ _).trans
            (List.Perm.cons y (ih j a hj))).trans (List.Perm.swap _ _ _)

lemma getD_set_same (l : List ℕ) (i j : ℕ) (hj : j < l.length) :
    (l.set i (l.getD j 0)).getD j 0 = l.getD j 0 := by
  by_cases hij : i = j
  · subst hij
    rw [List.getD_eq_getElem _ _ (by simpa using hj), List.getElem_set_self]
  · rw [List.getD_eq_getElem _ _ (by simpa using hj), List.getElem_set_ne hij]
    exact (List.getD_eq_getElem l 0 hj).symm

lemma listSwap_perm (l : List ℕ) (i j : ℕ) (hi : i < l.length)
    (hj : j < l.length) : (listSwap l i j).Perm l := by
  unfold listSwap
  have p1 := getD_cons_set_perm l i (l.getD j 0) hi
  have p2 := getD_cons_set_perm (l.set i (l.getD j 0)) j (l.getD i 0)
    (by simpa using hj)
  rw [getD_set_same l i j hj] at p2
  exact (p2.trans p1).cons_inv

lemma shuffleGo_perm (next : ℕ → ℕ × ℕ) :
    ∀ (i : ℕ) (l : List ℕ) (g : ℕ), i < l.length →
      ((shuffleGo next i l g).1).Perm l := by
  intro i
  induction i with
  | zero => intro l g _; simp [shuffleGo]
  | succ i ih =>
      intro l g h
      simp only [shuffleGo]
      have hswap : (listSwap l (i + 1) ((next g).1 % (i + 2))).Perm l :=
        listSwap_perm l _ _ h (lt_of_lt_of_le (Nat.mod_lt _ (Nat.succ_pos _)) h)
      have hlen : (listSwap l (i + 1) ((next g).1 % (i + 2))).length = l.length :=
        hswap.length_eq
      exact (ih _ _ (by omega)).trans hswap

lemma pyShuffle_perm (next : ℕ → ℕ × ℕ) (l : List ℕ) (g : ℕ) :
    ((pyShuffle next l g).1).Perm l := by
  unfold pyShuffle
  cases l with
  | nil => simp [shuffleGo]
  | cons x xs =>
      exact shuffleGo_perm next _ _ _ (by simp)

lemma pyRound_one (r : ℕ) : pyRound r 1 = r := by
  unfold pyRound
  omega

lemma pyRound_le (r s : ℕ) (hs : 0 < s) : pyRound r s ≤ r := by
  unfold pyRound
  rw [Nat.div_le_iff_le_mul_add_pred (by omega)]
  have h1 : 2 * r ≤ 2 * s * r := by
    have := Nat.mul_le_mul_right r (show 2 ≤ 2 * s by omega)
    linarith
  omega

lemma splitDimsGo_length : ∀ (s start r : ℕ), (splitDimsGo s start r).length = s := by
  intro s
  induction s with
  | zero => intro start r; simp [splitDimsGo]
  | succ s ih => intro start r; simp [splitDimsGo, ih]

lemma splitDimsGo_bounds :
    ∀ (s start r : ℕ) (p : ℕ × ℕ), p ∈ splitDimsGo s start r →
      start ≤ p.1 ∧ p.1 ≤ p.2 ∧ p.2 ≤ start + r := by
  intro s
  induction s with
  | zero => intro start r p hp; simp [splitDimsGo] at hp
  | succ s ih =>
      intro start r p hp
      simp only [splitDimsGo, List.mem_cons] at hp
      have hle := pyRound_le r (s + 1) (Nat.succ_pos s)
      rcases hp with h | h
      · subst h
        exact ⟨le_rfl, Nat.le_add_right _ _, by omega⟩
      · have := ih (start + pyRound r (s + 1)) (r - pyRound r (s + 1)) p h
        omega

lemma take_append_take (l : List ℕ) (start c r : ℕ) (hcr : c ≤ r) :
    (l.drop start).take c ++ (l.drop (start + c)).take (r - c)
      = (l.drop start).take r := by
  conv_rhs => rw [← Nat.add_sub_cancel' hcr]
  rw [List.take_add, List.drop_drop]

lemma splitDimsGo_join (l : List ℕ) :
    ∀ (s start r : ℕ), 0 < s → start + r ≤ l.length →
      ((splitDimsGo s start r).map fun p => (l.drop p.1).take (p.2 - p.1)).flatten
        = (l.drop start).take r := by
  intro s
  induction s with
  | zero => intro start r h; omega
  | succ s ih =>
      intro start r _ hlen
      rcases Nat.eq_zero_or_pos s with hs0 | hs
      · subst hs0
        simp [splitDimsGo, pyRound_one]
      · simp only [splitDimsGo, List.map_cons, List.flatten_cons]
        have hle := pyRound_le r (s + 1) (Nat.succ_pos s)
        rw [ih (start + pyRound r (s + 1)) (r - pyRound r (s + 1)) hs (by omega)]
        rw [Nat.add_sub_cancel_left]
        exact take_append_take l start (pyRound r (s + 1)) r hle

lemma cover_decomp (l : List ℕ) (s e : ℕ) (hse : s ≤ e) :
    l = l.take s ++ ((l.drop s).take (e - s) ++ l.drop e) := by
  conv_lhs => rw [← List.take_append_drop s l]
  congr 1
  conv_lhs => rw [← List.take_append_drop (e - s) (l.drop s)]
  congr 1
  rw [List.drop_drop]
  congr 1
  omega

lemma pair_perm (l : List ℕ) (s e : ℕ) (hse : s ≤ e) :
    ((l.take s ++ l.drop e) ++ (l.drop s).take (e - s)).Perm l := by
  have h := (cover_decomp l s e hse).symm
  have p : ((l.take s ++ l.drop e) ++ (l.drop s).take (e - s)).Perm
      (l.take s ++ ((l.drop s).take (e - s) ++ l.drop e)) := by
    rw [List.append_assoc]
    exact List.Perm.append_left _ List.perm_append_comm
  rw [h] at p
  exact p

/-- C7: for every label list of length `N` and `0 < k ≤ N`, `kfold_splits`
returns `k` pairs of train/test index lists; in every pair the train and test
lists together are a permutation of `0..N-1` (hence disjoint, covering every
index exactly once), and the `k` test lists concatenated are a permutation of
`0..N-1` (hence pairwise disjoint with union the whole index set).  This
holds for every random generator `next`/`seedFn` and incoming state `g`. -/
theorem c7_kfold_splits_partition :
    ∀ (next : ℕ → ℕ × ℕ) (seedFn : ℤ → ℕ) (labels : List ℚ) (k : ℕ)
      (rseed : ℤ) (g : ℕ), 0 < k → k ≤ labels.length →
      ∃ l, (kfold_splits next seedFn labels k rseed g).1 = Except.ok l ∧
        l.length = k ∧
        (∀ p ∈ l, (p.1 ++ p.2).Perm (List.range labels.length)) ∧
        ((l.map Prod.snd).flatten).Perm (List.range labels.length) := by
  intro next seedFn labels k rseed g hk hkN
  unfold kfold_splits
  rw [if_pos ⟨hk, hkN⟩]
  refine ⟨_, rfl, ?_, ?_, ?_⟩
  · unfold _splits _split_dimensions
    rw [List.length_map, splitDimsGo_length]
  · intro p hp
    unfold _splits at hp
    rw [List.mem_map] at hp
    obtain ⟨q, hq, hpq⟩ := hp
    have hperm := pyShuffle_perm next (List.range labels.length) (seedFn rseed)
    have hlen : (pyShuffle next (List.range labels.length) (seedFn rseed)).1.length
        = labels.length := by
      rw [hperm.length_eq, List.length_range]
    have hb := splitDimsGo_bounds k 0 _ q (by
      unfold _split_dimensions at hq; exact hq)
    subst hpq
    exact (pair_perm _ q.1 q.2 hb.2.1).trans hperm
  · have hperm := pyShuffle_perm next (List.range labels.length) (seedFn rseed)
    set idx := (pyShuffle next (List.range labels.length) (seedFn rseed)).1 with hidx
    unfold _splits _split_dimensions
    rw [List.map_map]
    have hcomp : (Prod.snd ∘ fun p : ℕ × ℕ =>
        (idx.take p.1 ++ idx.drop p.2, (idx.drop p.1).take (p.2 - p.1)))
        = fun p : ℕ × ℕ => (idx.drop p.1).take (p.2 - p.1) := rfl
    rw [hcomp, splitDimsGo_join idx k 0 idx.length hk (by omega),
      List.drop_zero, List.take_length]
    exact hperm

/-- C7 witness: the concrete instance with five labels, `k = 2`, seed `0`,
a concrete linear-congruential generator and incoming state `0`. -/
theorem c7_witness :
    0 < 2 ∧ 2 ≤ ([1, 2, 3, 4, 5] : List ℚ).length ∧
      ∃ l, (kfold_splits (fun g => (g, 7 * g + 3)) Int.toNat
              ([1, 2, 3, 4, 5] : List ℚ) 2 0 0).1 = Except.ok l ∧
        l.length = 2 ∧
        (∀ p ∈ l, (p.1 ++ p.2).Perm
          (List.range ([1, 2, 3, 4, 5] : List ℚ).length)) ∧
        ((l.map Prod.snd).flatten).Perm
          (List.range ([1, 2, 3, 4, 5] : List ℚ).length) :=
  ⟨by decide, by decide,
    c7_kfold_splits_partition (fun g => (g, 7 * g + 3)) Int.toNat
      ([1, 2, 3, 4, 5] : List ℚ) 2 0 0 (by decide) (by decide)⟩

/-! ## Loop lemmas for the solver -/

lemma le_istaLoop_snd {n d : ℕ} (X : Fin n → Fin d → ℚ) (Y : Fin n → ℚ)
    (mu tau eps : ℚ) :
    ∀ (fuel : ℕ) (b : Fin d → ℚ) (k : ℕ),
      k ≤ (istaLoop X Y mu tau eps fuel b k).2 := by
  intro fuel
  induction fuel with
  | zero => intro b k; simp [istaLoop]
  | succ f ih =>
      intro b k
      simp only [istaLoop]
      split
      · exact Nat.le_succ k
      · exact le_trans (Nat.le_succ k) (ih _ _)

lemma istaLoop_snd_le {n d : ℕ} (X : Fin n → Fin d → ℚ) (Y : Fin n → ℚ)
    (mu tau eps : ℚ) :
    ∀ (fuel : ℕ) (b : Fin d → ℚ) (k : ℕ),
      (istaLoop X Y mu tau eps fuel b k).2 ≤ k + fuel := by
  intro fuel
  induction fuel with
  | zero => intro b k; simp [istaLoop]
  | succ f ih =>
      intro b k
      simp only [istaLoop]
      split
      · omega
      · have := ih (istaStep X Y mu tau b) (k + 1)
        omega

lemma convergedB_mono {d : ℕ} (eps1 eps2 : ℚ) (h : eps1 ≤ eps2)
    (bo bn : Fin d → ℚ) (hc : convergedB eps1 bo bn = true) :
    convergedB eps2 bo bn = true := by
  unfold convergedB at hc ⊢
  by_cases h0 : maxAbs bo = 0
  · rw [if_pos h0] at hc ⊢
    exact hc
  · rw [if_neg h0] at hc ⊢
    simp only [decide_eq_true_eq] at hc ⊢
    have hM : 0 ≤ maxAbs bo := maxAbs_nonneg bo
    calc maxAbs (fun j => bn j - bo j) ≤ eps1 * maxAbs bo := hc
      _ ≤ eps2 * maxAbs bo := by nlinarith

lemma istaLoop_snd_anti_eps {n d : ℕ} (X : Fin n → Fin d → ℚ) (Y : Fin n → ℚ)
    (mu tau : ℚ) (eps1 eps2 : ℚ) (h : eps1 ≤ eps2) :
    ∀ (fuel : ℕ) (b : Fin d → ℚ) (k : ℕ),
      (istaLoop X Y mu tau eps2 fuel b k).2 ≤ (istaLoop X Y mu tau eps1 fuel b k).2 := by
  intro fuel
  induction fuel with
  | zero => intro b k; simp [istaLoop]
  | succ f ih =>
      intro b k
      simp only [istaLoop]
      cases h1 : convergedB eps1 b (istaStep X Y mu tau b) with
      | true =>
          rw [convergedB_mono eps1 eps2 h _ _ h1]
          simp
      | false =>
          simp only [h1, Bool.false_eq_true, if_false]
          cases h2 : convergedB eps2 b (istaStep X Y mu tau b) with
          | true =>
              simp only [if_true]
              exact le_istaLoop_snd X Y mu tau eps1 f _ (k + 1)
          | false =>
              simp only [Bool.false_eq_true, if_false]
              exact ih _ _

lemma istaLoop_cap {n d : ℕ} (X : Fin n → Fin d → ℚ) (Y : Fin n → ℚ)
    (mu tau eps : ℚ) :
    ∀ (f2 f1 : ℕ) (b : Fin d → ℚ) (k : ℕ), f2 ≤ f1 →
      k + f2 < (istaLoop X Y mu tau eps f1 b k).2 →
      (istaLoop X Y mu tau eps f2 b k).2 = k + f2 := by
  intro f2
  induction f2 with
  | zero => intro f1 b k _ _; simp [istaLoop]
  | succ f ih =>
      intro f1 b k hle hlt
      obtain ⟨f1', rfl⟩ : ∃ f1', f1 = f1' + 1 := ⟨f1 - 1, by omega⟩
      simp only [istaLoop] at hlt ⊢
      cases hc : convergedB eps b (istaStep X Y mu tau b) with
      | true =>
          rw [hc] at hlt
          simp at hlt
      | false =>
          rw [hc] at hlt
          simp only [Bool.false_eq_true, if_false] at hlt ⊢
          rw [ih f1' _ (k + 1) (by omega) (by omega)]
          omega

/-! ## Claims C3 and C4 (solver iteration counts, spec-modelled) -/

/-- C3: for fixed `X, Y, mu, tau`, warm start and `kmax`, the iteration count
of `l1l2_regularization` is monotone in the tolerance: a run with a smaller
(tighter) tolerance never uses fewer iterations than a looser one;
equivalently a tolerance-`1e-3` run never uses more iterations than the
(smaller) default tolerance. -/
theorem c3_tolerance_monotone :
    ∀ (n d : ℕ) (X : Fin n → Fin d → ℚ) (Y : Fin n → ℚ) (mu tau : ℚ)
      (beta0 : Fin d → ℚ) (kmax : ℕ) (eps1 eps2 : ℚ), eps1 ≤ eps2 →
      (l1l2_regularization X Y mu tau beta0 kmax eps2).2
        ≤ (l1l2_regularization X Y mu tau beta0 kmax eps1).2 := by
  intro n d X Y mu tau beta0 kmax eps1 eps2 h
  unfold l1l2_regularization
  exact istaLoop_snd_anti_eps X Y mu tau eps1 eps2 h kmax beta0 0

/-- Concrete 2x2 instance used by witnesses: a diagonal design whose second
coordinate converges slowly (more than 10 iterations at tolerance 1e-3). -/
def Xw : Fin 2 → Fin 2 → ℚ := ![![1, 0], ![0, 1/2]]

/-- Response vector of the witness instance. -/
def Yw : Fin 2 → ℚ := ![1, 1]

/-- C3 witness: at the concrete instance `Xw, Yw` the tolerance-`1e-3` run
uses no more iterations than the default-tolerance run. -/
theorem c3_witness :
    defaultTol ≤ (1/1000 : ℚ) ∧
      (l1l2_regularization Xw Yw 0 0 (zeroVec 2) defaultKmax (1/1000)).2
        ≤ (l1l2_regularization Xw Yw 0 0 (zeroVec 2) defaultKmax defaultTol).2 :=
  ⟨by decide!,
    c3_tolerance_monotone 2 2 Xw Yw 0 0 (zeroVec 2) defaultKmax defaultTol
      (1/1000) (by decide!)⟩

/-- C4: every call of `l1l2_regularization` terminates with an iteration
count at most `kmax`; and whenever a run with a (larger) budget needs
strictly more than `kmax2` iterations, the run capped at `kmax2` reports
exactly `kmax2` iterations, which is at most the uncapped count. -/
theorem c4_iteration_cap :
    ∀ (n d : ℕ) (X : Fin n → Fin d → ℚ) (Y : Fin n → ℚ) (mu tau : ℚ)
      (beta0 : Fin d → ℚ) (kmax kmax2 : ℕ) (tol : ℚ),
      (l1l2_regularization X Y mu tau beta0 kmax tol).2 ≤ kmax ∧
      (kmax2 ≤ kmax →
        kmax2 < (l1l2_regularization X Y mu tau beta0 kmax tol).2 →
        (l1l2_regularization X Y mu tau beta0 kmax2 tol).2 = kmax2 ∧
        (l1l2_regularization X Y mu tau beta0 kmax2 tol).2
          ≤ (l1l2_regularization X Y mu tau beta0 kmax tol).2) := by
  intro n d X Y mu tau beta0 kmax kmax2 tol
  constructor
  · have := istaLoop_snd_le X Y mu tau tol kmax beta0 0
    unfold l1l2_regularization
    omega
  · intro h1 h2
    unfold l1l2_regularization at h2 ⊢
    have hcap := istaLoop_cap X Y mu tau tol kmax2 kmax beta0 0 h1 (by omega)
    constructor
    · omega
    · omega

/-- C4 witness: at the concrete instance `Xw, Yw` with `tau = 0`, `mu = 0`
and tolerance `1e-3` the uncapped run needs more than 10 iterations, and the
run capped at `kmax = 10` reports exactly 10 iterations, at most the
uncapped count. -/
theorem c4_witness :
    10 ≤ defaultKmax ∧
      10 < (l1l2_regularization Xw Yw 0 0 (zeroVec 2) defaultKmax (1/1000)).2 ∧
      ((l1l2_regularization Xw Yw 0 0 (zeroVec 2) 10 (1/1000)).2 = 10 ∧
        (l1l2_regularization Xw Yw 0 0 (zeroVec 2) 10 (1/1000)).2
          ≤ (l1l2_regularization Xw Yw 0 0 (zeroVec 2) defaultKmax (1/1000)).2) :=
  ⟨by decide!, by decide!,
    (c4_iteration_cap 2 2 Xw Yw 0 0 (zeroVec 2) defaultKmax 10 (1/1000)).2
      (by decide!) (by decide!)⟩

/-! ## Claims C1 and C5 (path driver, spec-modelled) -/

lemma pathGo_length_le {n d : ℕ} (X : Fin n → Fin d → ℚ) (Y : Fin n → ℚ)
    (mu : ℚ) :
    ∀ (taus : List ℚ) (warm : Fin d → ℚ) (pz : Bool),
      (pathGo X Y mu taus warm pz).length ≤ taus.length := by
  intro taus
  induction taus with
  | nil => intro warm pz; simp [pathGo]
  | cons t rest ih =>
      intro warm pz
      simp only [pathGo]
      split
      · simp
      · simpa using ih _ _

lemma pathGo_head_nonzero {n d : ℕ} (X : Fin n → Fin d → ℚ) (Y : Fin n → ℚ)
    (mu : ℚ) (taus : List ℚ) (warm : Fin d → ℚ) (b : Fin d → ℚ)
    (l : List (Fin d → ℚ)) (h : pathGo X Y mu taus warm true = b :: l) :
    allZeroB b = false := by
  cases taus with
  | nil => simp [pathGo] at h
  | cons t rest =>
      simp only [pathGo] at h
      cases hz : allZeroB (l1l2_regularization X Y mu t warm defaultKmax defaultTol).1 with
      | true => rw [hz] at h; simp at h
      | false =>
          rw [hz] at h
          simp only [Bool.false_and, Bool.false_eq_true, if_false, List.cons.injEq] at h
          rw [← h.1]
          exact hz

lemma pathGo_noConsec {n d : ℕ} (X : Fin n → Fin d → ℚ) (Y : Fin n → ℚ)
    (mu : ℚ) :
    ∀ (taus : List ℚ) (warm : Fin d → ℚ) (pz : Bool),
      noConsecZeros (pathGo X Y mu taus warm pz) = true := by
  intro taus
  induction taus with
  | nil => intro warm pz; simp [pathGo, noConsecZeros]
  | cons t rest ih =>
      intro warm pz
      simp only [pathGo]
      split
      · simp [noConsecZeros]
      · cases hL : pathGo X Y mu rest
            (l1l2_regularization X Y mu t warm defaultKmax defaultTol).1
            (allZeroB (l1l2_regularization X Y mu t warm defaultKmax defaultTol).1) with
        | nil => simp [noConsecZeros]
        | cons b2 l2 =>
            have h2 : noConsecZeros (b2 :: l2) = true := by
              rw [← hL]; exact ih _ _
            cases hzb : allZeroB (l1l2_regularization X Y mu t warm defaultKmax defaultTol).1 with
            | false => simp [noConsecZeros, hzb, h2]
            | true =>
                rw [hzb] at hL
                have hb2 : allZeroB b2 = false :=
                  pathGo_head_nonzero X Y mu rest _ b2 l2 hL
                simp [noConsecZeros, hzb, hb2, h2]

/-- Concrete 1x1 saturating instance for C1: with `mu = 1/10` the solution at
`tau = 1/10` is non-zero and every `tau ≥ 2` gives the all-zero solution. -/
def Xs : Fin 1 → Fin 1 → ℚ := fun _ _ => 1

/-- Response of the C1 saturating instance. -/
def Ys : Fin 1 → ℚ := fun _ => 1

/-- C1: for every design, response, penalty and τ sequence, once `l1l2_path`
computes an all-zero solution whose immediately preceding emitted solution
was also all-zero it emits nothing further — hence the emitted sequence never
contains two consecutive all-zero solutions; and on the concrete saturating
path `τ ∈ {0.1, 10, 1000, 10000}` (where large τ drives the solution to
zero) the returned sequence has exactly 2 entries. -/
theorem c1_path_saturation :
    (∀ (n d : ℕ) (X : Fin n → Fin d → ℚ) (Y : Fin n → ℚ) (mu : ℚ)
        (taus : List ℚ), noConsecZeros (l1l2_path X Y mu taus) = true) ∧
      (l1l2_path Xs Ys (1/10) [1/10, 10, 1000, 10000]).length = 2 := by
  constructor
  · intro n d X Y mu taus
    exact pathGo_noConsec X Y mu taus (zeroVec d) false
  · decide!

/-- C5 (amended): the sequence returned by `l1l2_path` has length at most
the number of τ values supplied. -/
theorem c5_path_length_le :
    ∀ (n d : ℕ) (X : Fin n → Fin d → ℚ) (Y : Fin n → ℚ) (mu : ℚ)
      (taus : List ℚ),
      (l1l2_path X Y mu taus).length ≤ taus.length := by
  intro n d X Y mu taus
  exact pathGo_length_le X Y mu taus (zeroVec d) false

/-- Design matrix of the C5 counterexample. -/
def Xc5 : Fin 2 → Fin 2 → ℚ := ![![-2, 1/2], ![3, 2]]

/-- Response of the C5 counterexample. -/
def Yc5 : Fin 2 → ℚ := ![1, 3]

/-- Monotone-sparsity test: consecutive non-zero counts never increase. -/
def countsNonIncreasingB {d : ℕ} : List (Fin d → ℚ) → Bool
  | a :: b :: rest =>
      decide (nonzeroCount b ≤ nonzeroCount a) && countsNonIncreasingB (b :: rest)
  | _ => true

/-- C5 counterexample: on the concrete instance `Xc5, Yc5` with `mu = 0` and
τ values `[21/10, 21/5]`, the path emits solutions with 1 and then 2
non-zero coefficients — the non-zero count of consecutive returned solutions
increases, refuting the monotone-sparsity conjunct of the claim. -/
theorem c5_counterexample :
    countsNonIncreasingB (l1l2_path Xc5 Yc5 0 [21/10, 21/5]) = false := by
  decide!

/-! ## Descent machinery for claim C2: scalar prox inequalities -/

lemma softThresh_zero (t : ℚ) : softThresh t 0 = 0 := by
  unfold softThresh
  simp

lemma softThresh_eq_zero_of_abs_le {t v : ℚ} (h : |v| ≤ t) : softThresh t v = 0 := by
  unfold softThresh
  rw [max_eq_right (by linarith)]
  simp

lemma softThresh_ne_zero {t v : ℚ} (h1 : 0 ≤ t) (h2 : t < |v|) :
    softThresh t v ≠ 0 := by
  unfold softThresh
  rw [max_eq_left (by linarith)]
  rcases lt_trichotomy v 0 with hv | hv | hv
  · rw [if_neg (by linarith), if_pos hv]
    simp only [neg_one_mul, ne_eq, neg_eq_zero]
    intro hcon
    linarith
  · subst hv
    rw [abs_zero] at h2
    linarith
  · rw [if_pos hv, one_mul]
    intro hcon
    linarith

lemma softThresh_min (sig tau v z : ℚ) (hs : 0 < sig) (ht : 0 ≤ tau) :
    sig * (softThresh (tau / (2 * sig)) v - v) ^ 2
      + tau * |softThresh (tau / (2 * sig)) v|
      + sig * (z - softThresh (tau / (2 * sig)) v) ^ 2
    ≤ sig * (z - v) ^ 2 + tau * |z| := by
  set t := tau / (2 * sig) with hT
  have h2t : 2 * sig * t = tau := by rw [hT]; field_simp
  have ht0 : 0 ≤ t := by rw [hT]; positivity
  rw [← h2t]
  rcases le_or_lt |v| t with hv | hv
  · rw [softThresh_eq_zero_of_abs_le hv, abs_zero]
    have habs := abs_le.mp hv
    rcases le_or_lt 0 z with hz | hz
    · rw [abs_of_nonneg hz]
      nlinarith [mul_le_mul_of_nonneg_right
        (mul_le_mul_of_nonneg_left habs.2 hs.le) hz]
    · rw [abs_of_neg hz]
      nlinarith [mul_le_mul_of_nonneg_right
        (mul_le_mul_of_nonneg_left habs.1 hs.le) (neg_nonneg.mpr hz.le)]
  · rcases lt_trichotomy v 0 with hneg | h0 | hpos
    · have hSv : softThresh t v = -(|v| - t) := by
        unfold softThresh
        rw [max_eq_left (by linarith), if_neg (by linarith), if_pos hneg]
        ring
      rw [hSv, abs_neg, abs_of_pos (by linarith : (0:ℚ) < |v| - t),
        abs_of_neg hneg] at *
      nlinarith [mul_nonneg (mul_nonneg hs.le ht0)
        (by linarith [neg_abs_le z] : (0:ℚ) ≤ |z| + z)]
    · subst h0
      rw [abs_zero] at hv
      linarith
    · have hSv : softThresh t v = |v| - t := by
        unfold softThresh
        rw [max_eq_left (by linarith), if_pos hpos, one_mul]
      rw [hSv, abs_of_pos (by linarith : (0:ℚ) < |v| - t), abs_of_pos hpos] at *
      nlinarith [mul_nonneg (mul_nonneg hs.le ht0)
        (sub_nonneg.mpr (le_abs_self z))]

lemma prox_step_ineq (sig tau g bj : ℚ) (hs : 0 < sig) (ht : 0 ≤ tau) :
    g * (softThresh (tau / (2 * sig)) (bj - g / (2 * sig)) - bj)
      + 2 * sig * (softThresh (tau / (2 * sig)) (bj - g / (2 * sig)) - bj) ^ 2
      + tau * |softThresh (tau / (2 * sig)) (bj - g / (2 * sig))|
    ≤ tau * |bj| := by
  have h := softThresh_min sig tau (bj - g / (2 * sig)) bj hs ht
  set s := softThresh (tau / (2 * sig)) (bj - g / (2 * sig)) with hsdef
  have hsig : sig ≠ 0 := hs.ne'
  have e1 : sig * (s - (bj - g / (2 * sig))) ^ 2
      = sig * (s - bj) ^ 2 + g * (s - bj) + g ^ 2 / (4 * sig) := by
    field_simp
    ring
  have e2 : sig * (bj - (bj - g / (2 * sig))) ^ 2 = g ^ 2 / (4 * sig) := by
    field_simp
    ring
  have e3 : (bj - s) ^ 2 = (s - bj) ^ 2 := by ring
  rw [e1, e3] at h
  rw [e2] at h
  linarith

/-! ## Descent machinery for claim C2: vector lemmas -/

/-- Sum of absolute coefficient values (the L1 norm). -/
def l1norm {d : ℕ} (b : Fin d → ℚ) : ℚ := ∑ j, |b j|

/-- The elastic-net objective of spec §4.2 in its per-sample scaling:
`‖Y−Xβ‖²/n + μ‖β‖² + τ‖β‖₁` (the scaling under which the solver's gradient
step, threshold `τ/(2σ)` and the bound `τ_max = 2·max|XᵀY|/n` are mutually
consistent). -/
def objective {n d : ℕ} (X : Fin n → Fin d → ℚ) (Y : Fin n → ℚ)
    (mu tau : ℚ) (b : Fin d → ℚ) : ℚ :=
  dotp (resid X Y b) (resid X Y b) / n + mu * dotp b b + tau * l1norm b

/-- Gradient of the smooth part `‖Y−Xβ‖²/n + μ‖β‖²` of the objective. -/
def gradg {n d : ℕ} (X : Fin n → Fin d → ℚ) (Y : Fin n → ℚ) (mu : ℚ)
    (b : Fin d → ℚ) : Fin d → ℚ :=
  fun j => 2 * mu * b j - (2 / n) * matTvec X (resid X Y b) j

lemma dotp_self_nonneg {m : ℕ} (u : Fin m → ℚ) : 0 ≤ dotp u u :=
  Finset.sum_nonneg fun i _ => mul_self_nonneg (u i)

lemma dotp_comm {m : ℕ} (u v : Fin m → ℚ) : dotp u v = dotp v u := by
  unfold dotp
  exact Finset.sum_congr rfl fun i _ => mul_comm _ _

lemma dotp_matVec {n d : ℕ} (X : Fin n → Fin d → ℚ) (u : Fin d → ℚ)
    (r : Fin n → ℚ) : dotp (matVec X u) r = dotp u (matTvec X r) := by
  unfold dotp matVec matTvec
  simp_rw [Finset.sum_mul, Finset.mul_sum]
  rw [Finset.sum_comm]
  refine Finset.sum_congr rfl fun j _ => Finset.sum_congr rfl fun i _ => by ring

lemma dotp_sub_expand {m : ℕ} (p q : Fin m → ℚ) :
    dotp (fun i => p i - q i) (fun i => p i - q i)
      = dotp p p - 2 * dotp p q + dotp q q := by
  unfold dotp
  rw [Finset.mul_sum, ← Finset.sum_sub_distrib, ← Finset.sum_add_distrib]
  exact Finset.sum_congr rfl fun i _ => by ring

lemma dotp_add_expand {m : ℕ} (p q : Fin m → ℚ) :
    dotp (fun i => p i + q i) (fun i => p i + q i)
      = dotp p p + 2 * dotp p q + dotp q q := by
  unfold dotp
  rw [Finset.mul_sum, ← Finset.sum_add_distrib, ← Finset.sum_add_distrib]
  exact Finset.sum_congr rfl fun i _ => by ring

lemma matVec_sq_le {n d : ℕ} (X : Fin n → Fin d → ℚ) (u : Fin d → ℚ) :
    dotp (matVec X u) (matVec X u) ≤ frobSq X * dotp u u := by
  unfold dotp matVec frobSq
  rw [Finset.sum_mul]
  apply Finset.sum_le_sum
  intro i _
  have hcs := Finset.sum_mul_sq_le_sq_mul_sq Finset.univ (fun j => X i j) u
  calc (∑ j, X i j * u j) * (∑ j, X i j * u j)
      = (∑ j, X i j * u j) ^ 2 := by ring
    _ ≤ (∑ j, X i j ^ 2) * ∑ j, u j ^ 2 := hcs
    _ = (∑ j, X i j ^ 2) * ∑ j, u j * u j := by
        congr 1
        exact Finset.sum_congr rfl fun j _ => by ring

lemma resid_shift {n d : ℕ} (X : Fin n → Fin d → ℚ) (Y : Fin n → ℚ)
    (b u : Fin d → ℚ) (i : Fin n) :
    resid X Y (fun j => b j + u j) i = resid X Y b i - matVec X u i := by
  unfold resid matVec
  have : ∀ j ∈ (Finset.univ : Finset (Fin d)),
      X i j * ((fun j => b j + u j) j) = X i j * b j + X i j * u j := by
    intro j _
    show X i j * (b j + u j) = X i j * b j + X i j * u j
    ring
  rw [Finset.sum_congr rfl this, Finset.sum_add_distrib]
  ring

lemma gradg_dot {n d : ℕ} (X : Fin n → Fin d → ℚ) (Y : Fin n → ℚ) (mu : ℚ)
    (b u : Fin d → ℚ) :
    dotp (gradg X Y mu b) u
      = 2 * mu * dotp b u - (2 / n) * dotp (matTvec X (resid X Y b)) u := by
  unfold dotp gradg
  rw [Finset.mul_sum, Finset.mul_sum, ← Finset.sum_sub_distrib]
  exact Finset.sum_congr rfl fun j _ => by ring

lemma smooth_upper {n d : ℕ} (X : Fin n → Fin d → ℚ) (Y : Fin n → ℚ)
    (mu : ℚ) (b u : Fin d → ℚ) (hn : 0 < n) :
    dotp (resid X Y (fun j => b j + u j)) (resid X Y (fun j => b j + u j)) / n
        + mu * dotp (fun j => b j + u j) (fun j => b j + u j)
      ≤ dotp (resid X Y b) (resid X Y b) / n + mu * dotp b b
        + dotp (gradg X Y mu b) u + sigmaOf X mu * dotp u u := by
  have hn' : (0:ℚ) < n := by exact_mod_cast hn
  have h1 : dotp (resid X Y (fun j => b j + u j)) (resid X Y (fun j => b j + u j))
      = dotp (resid X Y b) (resid X Y b)
        - 2 * dotp (resid X Y b) (matVec X u)
        + dotp (matVec X u) (matVec X u) := by
    have he : resid X Y (fun j => b j + u j)
        = fun i => resid X Y b i - matVec X u i := funext (resid_shift X Y b u)
    rw [he]
    exact dotp_sub_expand (resid X Y b) (matVec X u)
  have h2 : dotp (fun j => b j + u j) (fun j => b j + u j)
      = dotp b b + 2 * dotp b u + dotp u u := dotp_add_expand b u
  have h3 : dotp (resid X Y b) (matVec X u) = dotp u (matTvec X (resid X Y b)) := by
    rw [dotp_comm]
    exact dotp_matVec X u (resid X Y b)
  have h4 := gradg_dot X Y mu b u
  have hcs := matVec_sq_le X u
  have h5 : dotp (matVec X u) (matVec X u) / n ≤ frobSq X * dotp u u / n :=
    (div_le_div_iff_of_pos_right hn').mpr hcs
  have h6 : dotp u (matTvec X (resid X Y b))
      = dotp (matTvec X (resid X Y b)) u := dotp_comm _ _
  rw [h1, h3, h6, h2, h4]
  unfold sigmaOf
  have hne : (n:ℚ) ≠ 0 := hn'.ne'
  rw [← sub_nonneg]
  have heq : dotp (resid X Y b) (resid X Y b) / n + mu * dotp b b
        + (2 * mu * dotp b u - 2 / n * dotp (matTvec X (resid X Y b)) u)
        + (frobSq X / n + mu) * dotp u u
      - ((dotp (resid X Y b) (resid X Y b)
            - 2 * dotp (matTvec X (resid X Y b)) u
            + dotp (matVec X u) (matVec X u)) / n
          + mu * (dotp b b + 2 * dotp b u + dotp u u))
      = (frobSq X * dotp u u - dotp (matVec X u) (matVec X u)) / n := by
    field_simp
    ring
  rw [heq]
  exact div_nonneg (sub_nonneg.mpr hcs) hn'.le

lemma ista_descent {n d : ℕ} (X : Fin n → Fin d → ℚ) (Y : Fin n → ℚ)
    (mu tau : ℚ) (b : Fin d → ℚ) (hn : 0 < n) (hs : 0 < sigmaOf X mu)
    (ht : 0 ≤ tau) :
    objective X Y mu tau (istaStep X Y mu tau b)
      + sigmaOf X mu * dotp (fun j => istaStep X Y mu tau b j - b j)
          (fun j => istaStep X Y mu tau b j - b j)
      ≤ objective X Y mu tau b := by
  have hn' : (0:ℚ) < n := by exact_mod_cast hn
  have hne : (n:ℚ) ≠ 0 := hn'.ne'
  have hsne : sigmaOf X mu ≠ 0 := hs.ne'
  set bp := istaStep X Y mu tau b with hbp
  set u := fun j => bp j - b j with hu
  have hbu : (fun j => b j + u j) = bp := by
    funext j
    show b j + (bp j - b j) = bp j
    ring
  have hpt : ∀ j ∈ (Finset.univ : Finset (Fin d)),
      gradg X Y mu b j * u j + 2 * sigmaOf X mu * (u j * u j) + tau * |bp j|
        ≤ tau * |b j| := by
    intro j _
    have hv : bp j = softThresh (tau / (2 * sigmaOf X mu))
        (b j - gradg X Y mu b j / (2 * sigmaOf X mu)) := by
      rw [hbp]
      show softThresh (tau / (2 * sigmaOf X mu)) (preVal X Y mu b j) = _
      congr 1
      unfold preVal gradg
      field_simp
      ring
    have hineq := prox_step_ineq (sigmaOf X mu) tau (gradg X Y mu b j) (b j) hs ht
    rw [← hv] at hineq
    have he : u j = bp j - b j := rfl
    rw [he]
    nlinarith [hineq]
  have hsum0 := Finset.sum_le_sum hpt
  rw [Finset.sum_add_distrib, Finset.sum_add_distrib] at hsum0
  rw [← Finset.mul_sum, ← Finset.mul_sum, ← Finset.mul_sum] at hsum0
  have hsum : dotp (gradg X Y mu b) u + 2 * sigmaOf X mu * dotp u u
      + tau * l1norm bp ≤ tau * l1norm b := hsum0
  have hsm := smooth_upper X Y mu b u hn
  rw [hbu] at hsm
  unfold objective
  linarith [hsm, hsum]

lemma istaLoop_obj_le {n d : ℕ} (X : Fin n → Fin d → ℚ) (Y : Fin n → ℚ)
    (mu tau eps : ℚ) (hn : 0 < n) (hs : 0 < sigmaOf X mu) (ht : 0 ≤ tau) :
    ∀ (fuel : ℕ) (b : Fin d → ℚ) (k : ℕ),
      objective X Y mu tau (istaLoop X Y mu tau eps fuel b k).1
        ≤ objective X Y mu tau b := by
  intro fuel
  induction fuel with
  | zero => intro b k; simp [istaLoop]
  | succ f ih =>
      intro b k
      simp only [istaLoop]
      have hdes := ista_descent X Y mu tau b hn hs ht
      have hnn := dotp_self_nonneg (fun j => istaStep X Y mu tau b j - b j)
      have hstep : objective X Y mu tau (istaStep X Y mu tau b)
          ≤ objective X Y mu tau b := by
        nlinarith [mul_nonneg hs.le hnn]
      split
      · exact hstep
      · exact le_trans (ih _ _) hstep

/-! ## Claim C2: tightness of the L1 bound (spec-modelled) -/

lemma preVal_zeroVec {n d : ℕ} (X : Fin n → Fin d → ℚ) (Y : Fin n → ℚ)
    (j : Fin d) :
    preVal X Y 0 (zeroVec d) j = matTvec X Y j / (n * sigmaOf X 0) := by
  unfold preVal zeroVec
  rw [mul_zero, zero_add]
  congr 2
  funext i
  unfold resid matVec
  simp

lemma exists_entry_of_matTvec_ne {n d : ℕ} (X : Fin n → Fin d → ℚ)
    (Y : Fin n → ℚ) (j : Fin d) (h : matTvec X Y j ≠ 0) : ∃ i, X i j ≠ 0 := by
  by_contra hc
  push_neg at hc
  apply h
  unfold matTvec
  exact Finset.sum_eq_zero fun i _ => by rw [hc i, zero_mul]

lemma n_pos_of_matTvec_ne {n d : ℕ} (X : Fin n → Fin d → ℚ) (Y : Fin n → ℚ)
    (j : Fin d) (h : matTvec X Y j ≠ 0) : 0 < n := by
  rcases Nat.eq_zero_or_pos n with h0 | h1
  · subst h0
    exfalso
    apply h
    unfold matTvec
    simp
  · exact h1

lemma frobSq_pos_of_entry {n d : ℕ} (X : Fin n → Fin d → ℚ) (i : Fin n)
    (j : Fin d) (h : X i j ≠ 0) : 0 < frobSq X := by
  unfold frobSq
  have h1 : 0 < (X i j) ^ 2 := by positivity
  have h2 : (X i j) ^ 2 ≤ ∑ j2, (X i j2) ^ 2 :=
    Finset.single_le_sum (f := fun j2 => (X i j2) ^ 2)
      (fun _ _ => sq_nonneg _) (Finset.mem_univ j)
  have h3 : (∑ j2, (X i j2) ^ 2) ≤ ∑ i2, ∑ j2, (X i2 j2) ^ 2 :=
    Finset.single_le_sum (f := fun i2 => ∑ j2, (X i2 j2) ^ 2)
      (fun _ _ => Finset.sum_nonneg fun _ _ => sq_nonneg _) (Finset.mem_univ i)
  linarith

lemma istaStep_taumax_eq_zero {n d : ℕ} (X : Fin n → Fin d → ℚ)
    (Y : Fin n → ℚ) (j : Fin d) :
    istaStep X Y 0 (l1_bound X Y) (zeroVec d) j = 0 := by
  show softThresh _ (preVal X Y 0 (zeroVec d) j) = 0
  rw [preVal_zeroVec X Y j]
  by_cases hM : matTvec X Y j = 0
  · rw [hM, zero_div]
    exact softThresh_zero _
  · have hnn : 0 < n := n_pos_of_matTvec_ne X Y j hM
    have hn' : (0:ℚ) < n := by exact_mod_cast hnn
    obtain ⟨i, hi⟩ := exists_entry_of_matTvec_ne X Y j hM
    have hF : 0 < frobSq X := frobSq_pos_of_entry X i j hi
    have hσ : 0 < sigmaOf X 0 := by
      have hσeq : sigmaOf X 0 = frobSq X / n := by unfold sigmaOf; ring
      rw [hσeq]
      exact div_pos hF hn'
    apply softThresh_eq_zero_of_abs_le
    rw [abs_div, abs_of_pos (by positivity : (0:ℚ) < n * sigmaOf X 0)]
    unfold l1_bound
    have heq : 2 * maxAbs (matTvec X Y) / n / (2 * sigmaOf X 0)
        = maxAbs (matTvec X Y) / (n * sigmaOf X 0) := by
      field_simp
      ring
    rw [heq]
    exact (div_le_div_iff_of_pos_right (by positivity)).mpr (abs_le_maxAbs _ j)

lemma istaLoop_succ {n d : ℕ} (X : Fin n → Fin d → ℚ) (Y : Fin n → ℚ)
    (mu tau eps : ℚ) (fuel : ℕ) (b : Fin d → ℚ) (k : ℕ) :
    istaLoop X Y mu tau eps (fuel + 1) b k =
      if convergedB eps b (istaStep X Y mu tau b)
      then (istaStep X Y mu tau b, k + 1)
      else istaLoop X Y mu tau eps fuel (istaStep X Y mu tau b) (k + 1) := rfl

lemma l1l2_at_bound_all_zero {n d : ℕ} (X : Fin n → Fin d → ℚ)
    (Y : Fin n → ℚ) :
    ∀ j, (l1l2_regularization X Y 0 (l1_bound X Y) (zeroVec d)
      defaultKmax defaultTol).1 j = 0 := by
  intro j
  have hstep := istaStep_taumax_eq_zero X Y (d := d)
  have hconv : convergedB defaultTol (zeroVec d)
      (istaStep X Y 0 (l1_bound X Y) (zeroVec d)) = true := by
    unfold convergedB
    rw [if_pos ((maxAbs_eq_zero_iff (zeroVec d)).mpr (fun _ => rfl))]
    exact decide_eq_true ((maxAbs_eq_zero_iff _).mpr hstep)
  show (istaLoop X Y 0 (l1_bound X Y) defaultTol defaultKmax (zeroVec d) 0).1 j = 0
  have hk : defaultKmax = 99999 + 1 := rfl
  rw [hk, istaLoop_succ, hconv, if_pos rfl]
  exact hstep j

lemma nonzeroCount_eq_zero_iff {d : ℕ} (b : Fin d → ℚ) :
    nonzeroCount b = 0 ↔ ∀ j, b j = 0 := by
  unfold nonzeroCount
  rw [Finset.card_eq_zero, Finset.filter_eq_empty_iff]
  constructor
  · intro h j
    have := h (Finset.mem_univ j)
    rwa [not_ne_iff] at this
  · intro h j _
    rw [not_ne_iff]
    exact h j

/-- C2 (amended): for every `X` and `Y` with `mu = 0`, running the solver at
`τ = l1_bound(X, Y)` from the zero start returns a coefficient vector with
zero non-zero entries; and — provided `l1_bound(X, Y) ≥ 1e-3`, so that the
reduced penalty `l1_bound(X, Y) − 1e-3` is still a non-negative penalty —
running it at that reduced penalty returns a vector with at least one
non-zero entry. -/
theorem c2_l1_bound_tightness :
    ∀ (n d : ℕ) (X : Fin n → Fin d → ℚ) (Y : Fin n → ℚ),
      nonzeroCount ((l1l2_regularization X Y 0 (l1_bound X Y) (zeroVec d)
        defaultKmax defaultTol).1) = 0 ∧
      (1/1000 ≤ l1_bound X Y →
        1 ≤ nonzeroCount ((l1l2_regularization X Y 0 (l1_bound X Y - 1/1000)
          (zeroVec d) defaultKmax defaultTol).1)) := by
  intro n d X Y
  constructor
  · exact (nonzeroCount_eq_zero_iff _).mpr (l1l2_at_bound_all_zero X Y)
  · intro hb
    set tau := l1_bound X Y - 1/1000 with htau
    have hn0 : (n:ℚ) ≠ 0 := by
      intro h0
      unfold l1_bound at hb
      rw [h0, div_zero] at hb
      linarith
    have hn' : (0:ℚ) < n := lt_of_le_of_ne (Nat.cast_nonneg n) (Ne.symm hn0)
    have hnn : 0 < n := by exact_mod_cast hn'
    have hM : 0 < maxAbs (matTvec X Y) := by
      rcases lt_or_eq_of_le (maxAbs_nonneg (matTvec X Y)) with h | h
      · exact h
      · exfalso
        unfold l1_bound at hb
        rw [← h] at hb
        norm_num at hb
    have hτ0 : 0 ≤ tau := by
      rw [htau]
      linarith
    have hex : ∃ j, matTvec X Y j ≠ 0 := by
      by_contra hc
      push_neg at hc
      rw [(maxAbs_eq_zero_iff _).mpr hc] at hM
      exact lt_irrefl 0 hM
    obtain ⟨j1, hj1⟩ := hex
    obtain ⟨i1, hi1⟩ := exists_entry_of_matTvec_ne X Y j1 hj1
    have hF : 0 < frobSq X := frobSq_pos_of_entry X i1 j1 hi1
    have hσ : 0 < sigmaOf X 0 := by
      have hσeq : sigmaOf X 0 = frobSq X / n := by unfold sigmaOf; ring
      rw [hσeq]
      exact div_pos hF hn'
    have hkey : ∃ j0, tau / (2 * sigmaOf X 0)
        < |matTvec X Y j0 / (n * sigmaOf X 0)| := by
      by_contra hc
      push_neg at hc
      have hble : ∀ j0, |matTvec X Y j0| ≤ tau * n / 2 := by
        intro j0
        have h1 := hc j0
        rw [abs_div, abs_of_pos (by positivity : (0:ℚ) < n * sigmaOf X 0)] at h1
        rw [div_le_div_iff (by positivity) (by positivity)] at h1
        have h2 : tau * ((n:ℚ) * sigmaOf X 0) / (2 * sigmaOf X 0) = tau * n / 2 := by
          field_simp
          ring
        rw [← h2, le_div_iff (by positivity)]
        linarith [h1]
      have hMle : maxAbs (matTvec X Y) ≤ tau * n / 2 :=
        maxAbs_le _ _ (div_nonneg (mul_nonneg hτ0 hn'.le) (by norm_num)) hble
      unfold l1_bound at htau
      rw [htau] at hMle
      have heq2 : (2 * maxAbs (matTvec X Y) / n - 1/1000) * n / 2
          = maxAbs (matTvec X Y) - n / 2000 := by
        field_simp
        ring
      rw [heq2] at hMle
      nlinarith [hn']
    obtain ⟨j0, hj0⟩ := hkey
    have hb1 : istaStep X Y 0 tau (zeroVec d) j0 ≠ 0 := by
      show softThresh (tau / (2 * sigmaOf X 0)) (preVal X Y 0 (zeroVec d) j0) ≠ 0
      rw [preVal_zeroVec X Y j0]
      exact softThresh_ne_zero (div_nonneg hτ0 (by positivity)) hj0
    have hcv : convergedB defaultTol (zeroVec d)
        (istaStep X Y 0 tau (zeroVec d)) = false := by
      unfold convergedB
      rw [if_pos ((maxAbs_eq_zero_iff (zeroVec d)).mpr (fun _ => rfl))]
      apply decide_eq_false
      intro hz
      exact hb1 ((maxAbs_eq_zero_iff _).mp hz j0)
    have hres : (l1l2_regularization X Y 0 tau (zeroVec d) defaultKmax defaultTol).1
        = (istaLoop X Y 0 tau defaultTol 99999 (istaStep X Y 0 tau (zeroVec d)) 1).1 := by
      show (istaLoop X Y 0 tau defaultTol defaultKmax (zeroVec d) 0).1 = _
      have hk : defaultKmax = 99999 + 1 := rfl
      rw [hk, istaLoop_succ, hcv, if_neg Bool.false_ne_true]
    have hdes := ista_descent X Y 0 tau (zeroVec d) hnn hσ hτ0
    have hobj := istaLoop_obj_le X Y 0 tau defaultTol hnn hσ hτ0 99999
      (istaStep X Y 0 tau (zeroVec d)) 1
    have hu0 : istaStep X Y 0 tau (zeroVec d) j0 - zeroVec d j0
        = istaStep X Y 0 tau (zeroVec d) j0 := by
      show _ - 0 = _
      ring
    have hdd : 0 < dotp (fun j => istaStep X Y 0 tau (zeroVec d) j - zeroVec d j)
        (fun j => istaStep X Y 0 tau (zeroVec d) j - zeroVec d j) := by
      have hterm : 0 < (istaStep X Y 0 tau (zeroVec d) j0 - zeroVec d j0)
          * (istaStep X Y 0 tau (zeroVec d) j0 - zeroVec d j0) := by
        rw [hu0]
        exact mul_self_pos.mpr hb1
      have hle := Finset.single_le_sum
        (f := fun j => (istaStep X Y 0 tau (zeroVec d) j - zeroVec d j)
          * (istaStep X Y 0 tau (zeroVec d) j - zeroVec d j))
        (fun _ _ => mul_self_nonneg _) (Finset.mem_univ j0)
      exact lt_of_lt_of_le hterm hle
    have hstrict : objective X Y 0 tau (istaStep X Y 0 tau (zeroVec d))
        < objective X Y 0 tau (zeroVec d) := by
      nlinarith [mul_pos hσ hdd]
    by_contra hcount
    push_neg at hcount
    have h0 : nonzeroCount ((l1l2_regularization X Y 0 tau (zeroVec d)
        defaultKmax defaultTol).1) = 0 := by omega
    have hzero := (nonzeroCount_eq_zero_iff _).mp h0
    have hfun : (l1l2_regularization X Y 0 tau (zeroVec d) defaultKmax defaultTol).1
        = zeroVec d := funext fun j => hzero j
    rw [hres] at hfun
    rw [hfun] at hobj
    linarith

/-- Design matrix of the C2 counterexample (`XᵀY = 0`). -/
def Xz : Fin 1 → Fin 1 → ℚ := fun _ _ => 1

/-- Response of the C2 counterexample. -/
def Yz : Fin 1 → ℚ := fun _ => 0

/-- C2 counterexample: at `X = [[1]]`, `Y = [0]` the bound is
`l1_bound(X, Y) = 0`, and running the solver with `mu = 0` at
`τ = l1_bound(X, Y) − 1e-3` returns the all-zero coefficient vector — the
original claim's "at least one non-zero entry" fails for this input. -/
theorem c2_counterexample :
    ¬ (1 ≤ nonzeroCount ((l1l2_regularization Xz Yz 0 (l1_bound Xz Yz - 1/1000)
      (zeroVec 1) defaultKmax defaultTol).1)) := by
  decide!

/-- C2 witness: at the concrete instance `Xs = [[1]]`, `Ys = [1]` the bound is
`l1_bound = 2 ≥ 1e-3`; the solver returns the all-zero vector at `τ = 2` and
a vector with one non-zero entry at `τ = 2 − 1e-3`. -/
theorem c2_witness :
    (1/1000 : ℚ) ≤ l1_bound Xs Ys ∧
      nonzeroCount ((l1l2_regularization Xs Ys 0 (l1_bound Xs Ys) (zeroVec 1)
        defaultKmax defaultTol).1) = 0 ∧
      1 ≤ nonzeroCount ((l1l2_regularization Xs Ys 0 (l1_bound Xs Ys - 1/1000)
        (zeroVec 1) defaultKmax defaultTol).1) :=
  ⟨by decide!, (c2_l1_bound_tightness 1 1 Xs Ys).1,
    (c2_l1_bound_tightness 1 1 Xs Ys).2 (by decide!)⟩
